import Mathlib

/-!
Verification of the subtitle-editor transcription script
(scripts/whisper_transcribe.py).

The script's two pieces of non-trivial logic are embedded here:

* the segment splitter: split_text breaks an over-long transcribed text
  on the rightmost punctuation boundary within a window of max_len
  characters, and the driver (processSegment) redistributes timestamps
  proportionally over the resulting chunks;
* the model locator: resolve_model_path maps a model identifier to a
  local snapshot directory, falling back to the identifier itself.

Python strings are modelled as List Char; Python floats as ℚ with
round-half-to-even rounding; the filesystem as an abstract record of
query functions. The while loop of split_text is modelled with fuel
(one unit per loop iteration); the fuel text.length is shown sufficient.
-/

set_option autoImplicit false
set_option maxRecDepth 100000

namespace WhisperTranscribe

/-- Python str.strip: drop leading and trailing whitespace. -/
def strip (l : List Char) : List Char :=
  ((l.dropWhile Char.isWhitespace).reverse.dropWhile Char.isWhitespace).reverse

/-- Python str.rfind for a single-character needle: the highest index at
which the character occurs, or -1 when it does not occur. -/
def rfind : List Char → Char → ℤ
  | [], _ => -1
  | a :: l, c =>
    if 0 ≤ rfind l c then rfind l c + 1 else if a = c then 0 else -1

/-- The punctuation list of split_text, in source order. -/
def punctuations : List Char :=
  ['。', '！', '？', '，', '、', '；', '.', '!', '?', ',', ';', ' ']

/-- The for-loop over punctuations of split_text: starting from -1, keep
the larger of the accumulator and rfind window p for each punctuation p. -/
def best_punct_pos (window : List Char) : ℤ :=
  punctuations.foldl
    (fun acc p => if acc < rfind window p then rfind window p else acc) (-1)

/-- One iteration's split position: the largest rfind result over the
window text[:max_len], forced to max_len - 1 when that maximum is at
most 0. -/
def split_pos (text : List Char) (max_len : ℕ) : ℤ :=
  if best_punct_pos (text.take max_len) ≤ 0 then (max_len : ℤ) - 1
  else best_punct_pos (text.take max_len)

/-- The while loop of split_text, with fuel: each loop iteration consumes
one unit. While the remaining text is longer than max_len, the chunk up
to the split position (inclusive, stripped) is emitted and the remainder
(stripped) is processed further; at exit the remainder is appended when
non-empty. When fuel runs out the remainder is returned as in loop exit
(unreachable with fuel ≥ text.length and max_len ≥ 1). -/
def splitLoop (max_len : ℕ) : ℕ → List Char → List (List Char)
  | 0, text => if text.isEmpty then [] else [text]
  | fuel + 1, text =>
    if max_len < text.length then
      strip (text.take (split_pos text max_len + 1).toNat) ::
        splitLoop max_len fuel (strip (text.drop (split_pos text max_len + 1).toNat))
    else if text.isEmpty then [] else [text]

/-- split_text from the script: texts of length at most max_len are
returned whole; longer texts go through the punctuation-splitting loop. -/
def split_text (text : List Char) (max_len : ℕ) : List (List Char) :=
  if text.length ≤ max_len then [text]
  else splitLoop max_len text.length text

/-- MAX_TEXT_LENGTH from the script. -/
def MAX_TEXT_LENGTH : ℕ := 25

/-- Round-half-to-even to an integer, the rounding of Python round(). -/
def roundHalfEven (q : ℚ) : ℤ :=
  if q - ⌊q⌋ < 1/2 then ⌊q⌋
  else if 1/2 < q - ⌊q⌋ then ⌊q⌋ + 1
  else if ⌊q⌋ % 2 = 0 then ⌊q⌋ else ⌊q⌋ + 1

/-- Python round(x, 2): round to two decimal places, ties to even. -/
def pyRound2 (q : ℚ) : ℚ := (roundHalfEven (q * 100) : ℚ) / 100

/-- A raw transcription segment as produced by the recognizer. -/
structure RawSegment where
  start : ℚ
  «end» : ℚ
  text : List Char
deriving DecidableEq

/-- One output subtitle entry: a point-in-time and a text. -/
structure SubtitleEntry where
  time : ℚ
  text : List Char
deriving DecidableEq

/-- The per-segment driver logic of main (lines 186-201): strip the
segment text, round its start and end to two decimals, and either emit
a single entry or split and redistribute timestamps proportionally. -/
def processSegment (seg : RawSegment) : List SubtitleEntry :=
  let text := strip seg.text
  let start_time := pyRound2 seg.start
  let end_time := pyRound2 seg.«end»
  if MAX_TEXT_LENGTH < text.length then
    let parts := split_text text MAX_TEXT_LENGTH
    let duration := end_time - start_time
    let time_per_part := if 0 < parts.length then duration / (parts.length : ℚ) else 0
    parts.enum.map (fun jp => ⟨pyRound2 (start_time + (jp.1 : ℚ) * time_per_part), jp.2⟩)
  else
    [⟨start_time, text⟩]

/-- An abstract filesystem: the three queries resolve_model_path makes. -/
structure FS where
  isDir : String → Bool
  pathExists : String → Bool
  listDir : String → List String

/-- os.path.join for a relative second component. -/
def joinPath (a b : String) : String := a ++ "/" ++ b

/-- The model_map dict of resolve_model_path. -/
def model_map : List (String × String) :=
  [("tiny", "models--Systran--faster-whisper-tiny"),
   ("base", "models--Systran--faster-whisper-base"),
   ("small", "models--Systran--faster-whisper-small"),
   ("medium", "models--Systran--faster-whisper-medium"),
   ("large", "models--Systran--faster-whisper-large-v3"),
   ("large-v3", "models--Systran--faster-whisper-large-v3")]

/-- The for-loop over snapshots: the first listed child that is a
directory and contains model.bin, if any. -/
def findSnapshot (fs : FS) (snapshots_dir : String) : List String → Option String
  | [] => none
  | s :: rest =>
    let snapshot_path := joinPath snapshots_dir s
    if fs.isDir snapshot_path && fs.pathExists (joinPath snapshot_path "model.bin") then
      some snapshot_path
    else
      findSnapshot fs snapshots_dir rest

/-- resolve_model_path from the script, over the abstract filesystem;
models_dir is the WHISPER_MODELS_DIR value already read by the caller. -/
def resolve_model_path (fs : FS) (models_dir : String) (model_name : String) : String :=
  if fs.isDir model_name && fs.pathExists (joinPath model_name "model.bin") then
    model_name
  else
    match model_map.lookup model_name with
    | some model_folder =>
      let snapshots_dir := joinPath (joinPath models_dir model_folder) "snapshots"
      if fs.isDir snapshots_dir then
        match findSnapshot fs snapshots_dir (fs.listDir snapshots_dir) with
        | some p => p
        | none => model_name
      else model_name
    | none => model_name

/-- The split-position characterization following the specification: the
largest index within the first max_len characters holding a punctuation
character; max_len - 1 when there is none or the largest is 0. -/
def split_pos_spec (text : List Char) (max_len : ℕ) : ℤ :=
  match ((List.range max_len).filter
      (fun i => decide (i < text.length ∧ text.getD i 'A' ∈ punctuations))).maximum with
  | some m => if 0 < m then (m : ℤ) else (max_len : ℤ) - 1
  | none => (max_len : ℤ) - 1

/-- The non-whitespace predicate, used to state that splitting drops
only whitespace. -/
def nonWhitespace (c : Char) : Bool := !c.isWhitespace

/-- A 62-character text that split_text at max_len 25 cuts into three
chunks, used as concrete input for witnesses and counterexamples. -/
def cexText : List Char :=
  "aaaaaaaaaaaaaaaaaaaa,bbbbbbbbbbbbbbbbbbbb,cccccccccccccccccccc".toList

/-- A segment whose sub-second start and end times expose the difference
between redistributing the raw times and the rounded times. -/
def cexSeg : RawSegment := ⟨4/1000, 9/1000, cexText⟩

/-- A filesystem on which every query fails: no directories, no files,
empty listings. -/
def emptyFS : FS :=
  { isDir := fun _ => false, pathExists := fun _ => false, listDir := fun _ => [] }

/-! ## Lemmas about strip -/

theorem strip_sublist (l : List Char) : (strip l).Sublist l := by
  have h1 : (l.dropWhile Char.isWhitespace).Sublist l := List.dropWhile_sublist _
  have h2 := (List.dropWhile_sublist (l := (l.dropWhile Char.isWhitespace).reverse)
    Char.isWhitespace).reverse
  rw [List.reverse_reverse] at h2
  exact h2.trans h1

theorem strip_length_le (l : List Char) : (strip l).length ≤ l.length :=
  (strip_sublist l).length_le

theorem filter_dropWhile_ws (l : List Char) :
    (l.dropWhile Char.isWhitespace).filter nonWhitespace = l.filter nonWhitespace := by
  induction l with
  | nil => rfl
  | cons a l ih =>
    simp only [List.dropWhile_cons, List.filter_cons]
    by_cases h : a.isWhitespace
    · simp only [h, if_pos, ih, nonWhitespace, Bool.not_true, Bool.false_eq_true, if_false]
    · simp only [h, Bool.false_eq_true, if_false, List.filter_cons, nonWhitespace,
        Bool.not_false, if_true]

theorem filter_strip (l : List Char) :
    (strip l).filter nonWhitespace = l.filter nonWhitespace := by
  unfold strip
  rw [List.filter_reverse, filter_dropWhile_ws, List.filter_reverse, filter_dropWhile_ws,
    List.reverse_reverse]

/-! ## Lemmas about rfind -/

theorem rfind_lt_length (l : List Char) (c : Char) : rfind l c < l.length := by
  induction l with
  | nil => simp [rfind]
  | cons a l ih =>
    simp only [rfind, List.length_cons]
    split
    · push_cast
      omega
    · split <;> · push_cast; omega

theorem rfind_neg_one_le (l : List Char) (c : Char) : -1 ≤ rfind l c := by
  induction l with
  | nil => simp [rfind]
  | cons a l ih =>
    simp only [rfind]
    split
    · omega
    · split <;> omega

theorem rfind_getD (l : List Char) (c : Char) (h : 0 ≤ rfind l c) :
    (rfind l c).toNat < l.length ∧ l.getD (rfind l c).toNat 'A' = c := by
  induction l with
  | nil => simp [rfind] at h
  | cons a l ih =>
    by_cases hr : 0 ≤ rfind l c
    · have hab : rfind (a :: l) c = rfind l c + 1 := by rw [rfind, if_pos hr]
      obtain ⟨h1, h2⟩ := ih hr
      rw [hab]
      have ht : (rfind l c + 1).toNat = (rfind l c).toNat + 1 := by omega
      rw [ht]
      exact ⟨by simpa using h1, by simpa [List.getD_cons_succ] using h2⟩
    · by_cases hac : a = c
      · have hab : rfind (a :: l) c = 0 := by rw [rfind, if_neg hr, if_pos hac]
        rw [hab]
        exact ⟨by simp, by simpa [List.getD_cons_zero] using hac⟩
      · have hab : rfind (a :: l) c = -1 := by rw [rfind, if_neg hr, if_neg hac]
        rw [hab] at h
        omega

theorem rfind_ge (l : List Char) (c : Char) (i : ℕ) (hi : i < l.length)
    (hc : l.getD i 'A' = c) : (i : ℤ) ≤ rfind l c := by
  induction l generalizing i with
  | nil => simp at hi
  | cons a l ih =>
    cases i with
    | zero =>
      rw [List.getD_cons_zero] at hc
      rw [rfind]
      split
      · omega
      · simp [hc]
    | succ i =>
      rw [List.getD_cons_succ] at hc
      have hi2 : i < l.length := by simpa using hi
      have hle := ih i hi2 hc
      have hr : 0 ≤ rfind l c := le_trans (by positivity) hle
      rw [rfind, if_pos hr]
      push_cast
      omega

/-! ## Lemmas about best_punct_pos -/

theorem foldl_rfind_acc_le (w : List Char) (ps : List Char) (acc : ℤ) :
    acc ≤ ps.foldl (fun acc p => if acc < rfind w p then rfind w p else acc) acc := by
  induction ps generalizing acc with
  | nil => exact le_refl _
  | cons q ps ih =>
    rw [List.foldl_cons]
    refine le_trans ?_ (ih _)
    split <;> omega

theorem foldl_rfind_ge_mem (w : List Char) (ps : List Char) (acc : ℤ) (p : Char)
    (hp : p ∈ ps) :
    rfind w p ≤ ps.foldl (fun acc p => if acc < rfind w p then rfind w p else acc) acc := by
  induction ps generalizing acc with
  | nil => simp at hp
  | cons q ps ih =>
    rw [List.foldl_cons]
    rcases List.mem_cons.mp hp with h | h
    · subst h
      refine le_trans ?_ (foldl_rfind_acc_le w ps _)
      split <;> omega
    · exact ih _ h

theorem foldl_rfind_cases (w : List Char) (ps : List Char) (acc : ℤ) :
    ps.foldl (fun acc p => if acc < rfind w p then rfind w p else acc) acc = acc ∨
    ∃ p ∈ ps, ps.foldl (fun acc p => if acc < rfind w p then rfind w p else acc) acc
      = rfind w p := by
  induction ps generalizing acc with
  | nil => exact Or.inl rfl
  | cons q ps ih =>
    rw [List.foldl_cons]
    rcases ih (if acc < rfind w q then rfind w q else acc) with h | ⟨p, hp, h⟩
    · rw [h]
      split
      · exact Or.inr ⟨q, List.mem_cons_self _ _, rfl⟩
      · exact Or.inl rfl
    · exact Or.inr ⟨p, List.mem_cons_of_mem _ hp, h⟩

theorem bpp_neg_one_le (w : List Char) : -1 ≤ best_punct_pos w :=
  foldl_rfind_acc_le w punctuations (-1)

theorem bpp_lt_length (w : List Char) : best_punct_pos w < w.length := by
  rcases foldl_rfind_cases w punctuations (-1) with h | ⟨p, _, h⟩
  · rw [best_punct_pos, h]
    omega
  · rw [best_punct_pos, h]
    exact rfind_lt_length w p

theorem bpp_ge_rfind (w : List Char) (p : Char) (hp : p ∈ punctuations) :
    rfind w p ≤ best_punct_pos w :=
  foldl_rfind_ge_mem w punctuations (-1) p hp

theorem bpp_occurrence (w : List Char) (h : 0 ≤ best_punct_pos w) :
    (best_punct_pos w).toNat < w.length ∧
      w.getD (best_punct_pos w).toNat 'A' ∈ punctuations := by
  rcases foldl_rfind_cases w punctuations (-1) with hc | ⟨p, hp, hc⟩
  · rw [best_punct_pos] at h
    rw [hc] at h
    omega
  · have hb : best_punct_pos w = rfind w p := hc
    rw [hb] at h ⊢
    obtain ⟨h1, h2⟩ := rfind_getD w p h
    exact ⟨h1, by rw [h2]; exact hp⟩

theorem bpp_ge_index (w : List Char) (i : ℕ) (hi : i < w.length)
    (hp : w.getD i 'A' ∈ punctuations) : (i : ℤ) ≤ best_punct_pos w :=
  le_trans (rfind_ge w (w.getD i 'A') i hi rfl) (bpp_ge_rfind w _ hp)

/-! ## Lemmas about split_pos -/

theorem getD_take (l : List Char) (n i : ℕ) (h : i < n) (d : Char) :
    (l.take n).getD i d = l.getD i d := by
  rw [List.getD_eq_getElem?_getD, List.getD_eq_getElem?_getD, List.getElem?_take, if_pos h]

theorem split_pos_nonneg (text : List Char) (max_len : ℕ) (h : 1 ≤ max_len) :
    0 ≤ split_pos text max_len := by
  rw [split_pos]
  split
  · omega
  · omega

theorem split_pos_le (text : List Char) (max_len : ℕ) :
    split_pos text max_len ≤ (max_len : ℤ) - 1 := by
  rw [split_pos]
  split
  · exact le_refl _
  · have h1 := bpp_lt_length (text.take max_len)
    have h2 : (text.take max_len).length ≤ max_len := by
      rw [List.length_take]
      omega
    omega

theorem split_pos_toNat_bounds (text : List Char) (max_len : ℕ) (h : 1 ≤ max_len) :
    1 ≤ (split_pos text max_len + 1).toNat ∧ (split_pos text max_len + 1).toNat ≤ max_len := by
  have h1 := split_pos_nonneg text max_len h
  have h2 := split_pos_le text max_len
  omega

theorem mem_split_candidates (text : List Char) (max_len i : ℕ) :
    (i ∈ (List.range max_len).filter
      (fun i => decide (i < text.length ∧ text.getD i 'A' ∈ punctuations))) ↔
    (i < (text.take max_len).length ∧ (text.take max_len).getD i 'A' ∈ punctuations) := by
  rw [List.mem_filter, List.mem_range, List.length_take]
  constructor
  · rintro ⟨h1, h2⟩
    have h3 := of_decide_eq_true h2
    refine ⟨by omega, ?_⟩
    rw [getD_take _ _ _ h1]
    exact h3.2
  · rintro ⟨h1, h2⟩
    have hi1 : i < max_len := by omega
    have hi2 : i < text.length := by omega
    rw [getD_take _ _ _ hi1] at h2
    exact ⟨hi1, decide_eq_true ⟨hi2, h2⟩⟩

/-- Claim C4: in every iteration of the splitting loop, the chosen split
position is the largest index within the first max_len characters at
which any character of the punctuation set occurs, the maximum taken
across all punctuation types; when no such index exists, or the maximum
index is 0, the split position is forced to max_len - 1. Formally, the
split position computed by the source loop (largest rfind over the
punctuation list, then forced when at most 0) coincides with this
specification on every input. -/
theorem c4_split_pos_agrees_with_spec (text : List Char) (max_len : ℕ) :
    split_pos text max_len = split_pos_spec text max_len := by
  rw [split_pos, split_pos_spec]
  cases hmax : ((List.range max_len).filter
      (fun i => decide (i < text.length ∧ text.getD i 'A' ∈ punctuations))).maximum with
  | bot =>
    have hnil := List.maximum_eq_none.mp hmax
    have hb : ¬ (0 ≤ best_punct_pos (text.take max_len)) := by
      intro h0
      obtain ⟨h1, h2⟩ := bpp_occurrence _ h0
      have hm := (mem_split_candidates text max_len _).mpr ⟨h1, h2⟩
      rw [hnil] at hm
      simp at hm
    rw [if_pos (by omega)]
  | coe m =>
    have hmem := List.maximum_mem hmax
    obtain ⟨hm1, hm2⟩ := (mem_split_candidates text max_len m).mp hmem
    have hle : (m : ℤ) ≤ best_punct_pos (text.take max_len) :=
      bpp_ge_index _ m hm1 hm2
    have hge : best_punct_pos (text.take max_len) ≤ (m : ℤ) := by
      rcases le_or_lt (best_punct_pos (text.take max_len)) 0 with h0 | h0
      · omega
      · obtain ⟨h1, h2⟩ := bpp_occurrence (text.take max_len) (by omega)
        have hmem2 := (mem_split_candidates text max_len
          (best_punct_pos (text.take max_len)).toNat).mpr ⟨h1, h2⟩
        have hlem := List.le_maximum_of_mem hmem2 hmax
        omega
    by_cases hm0 : 0 < m
    · rw [if_neg (by omega : ¬ best_punct_pos (text.take max_len) ≤ 0),
        le_antisymm hge hle]
      exact (if_pos hm0).symm
    · rw [if_pos (by omega : best_punct_pos (text.take max_len) ≤ 0)]
      exact (if_neg hm0).symm

/-! ## Lemmas about splitLoop and split_text -/

theorem splitLoop_nil (max_len fuel : ℕ) : splitLoop max_len fuel [] = [] := by
  cases fuel <;> simp [splitLoop]

theorem strip_drop_lt (text : List Char) (max_len : ℕ) (h1 : 1 ≤ max_len)
    (h2 : max_len < text.length) :
    (strip (text.drop (split_pos text max_len + 1).toNat)).length < text.length := by
  have hb := split_pos_toNat_bounds text max_len h1
  have hlen := strip_length_le (text.drop (split_pos text max_len + 1).toNat)
  have hdrop := List.length_drop (split_pos text max_len + 1).toNat text
  omega

theorem splitLoop_fuel_agnostic (max_len : ℕ) (h : 1 ≤ max_len) :
    ∀ fuel₁ fuel₂ (text : List Char), text.length ≤ fuel₁ → text.length ≤ fuel₂ →
      splitLoop max_len fuel₁ text = splitLoop max_len fuel₂ text := by
  intro fuel₁
  induction fuel₁ with
  | zero =>
    intro fuel₂ text h1 h2
    have hnil : text = [] := List.length_eq_zero.mp (by omega)
    subst hnil
    rw [splitLoop_nil, splitLoop_nil]
  | succ f ih =>
    intro fuel₂ text h1 h2
    cases fuel₂ with
    | zero =>
      have hnil : text = [] := List.length_eq_zero.mp (by omega)
      subst hnil
      rw [splitLoop_nil, splitLoop_nil]
    | succ g =>
      by_cases hc : max_len < text.length
      · simp only [splitLoop, if_pos hc]
        congr 1
        apply ih
        · have := strip_drop_lt text max_len h hc
          omega
        · have := strip_drop_lt text max_len h hc
          omega
      · simp only [splitLoop, if_neg hc]

theorem splitLoop_chunk_le (max_len : ℕ) (h : 1 ≤ max_len) :
    ∀ fuel (text : List Char), text.length ≤ fuel →
      ∀ c ∈ splitLoop max_len fuel text, c.length ≤ max_len := by
  intro fuel
  induction fuel with
  | zero =>
    intro text h1 c hc
    have hnil : text = [] := List.length_eq_zero.mp (by omega)
    subst hnil
    rw [splitLoop_nil] at hc
    simp at hc
  | succ f ih =>
    intro text h1 c hc
    by_cases hcond : max_len < text.length
    · simp only [splitLoop, if_pos hcond] at hc
      rcases List.mem_cons.mp hc with h2 | h2
      · subst h2
        have hb := split_pos_toNat_bounds text max_len h
        have hs := strip_length_le (text.take (split_pos text max_len + 1).toNat)
        have ht := List.length_take (split_pos text max_len + 1).toNat text
        omega
      · refine ih (strip (text.drop (split_pos text max_len + 1).toNat)) ?_ c h2
        have := strip_drop_lt text max_len h hcond
        omega
    · simp only [splitLoop, if_neg hcond] at hc
      by_cases he : text.isEmpty
      · rw [if_pos he] at hc
        simp at hc
      · rw [if_neg he] at hc
        rcases List.mem_singleton.mp hc with rfl
        omega

theorem splitLoop_flatten (max_len : ℕ) (h : 1 ≤ max_len) :
    ∀ fuel (text : List Char), text.length ≤ fuel →
      (splitLoop max_len fuel text).flatten.Sublist text ∧
        (splitLoop max_len fuel text).flatten.filter nonWhitespace
          = text.filter nonWhitespace := by
  intro fuel
  induction fuel with
  | zero =>
    intro text h1
    have hnil : text = [] := List.length_eq_zero.mp (by omega)
    subst hnil
    rw [splitLoop_nil]
    exact ⟨List.Sublist.refl _, rfl⟩
  | succ f ih =>
    intro text h1
    by_cases hcond : max_len < text.length
    · simp only [splitLoop, if_pos hcond, List.flatten_cons]
      obtain ⟨ih1, ih2⟩ := ih (strip (text.drop (split_pos text max_len + 1).toNat))
        (by have := strip_drop_lt text max_len h hcond; omega)
      constructor
      · have hs1 := strip_sublist (text.take (split_pos text max_len + 1).toNat)
        have hs2 := ih1.trans (strip_sublist (text.drop (split_pos text max_len + 1).toNat))
        have hall := hs1.append hs2
        rwa [List.take_append_drop] at hall
      · rw [List.filter_append, filter_strip, ih2, filter_strip, ← List.filter_append,
          List.take_append_drop]
    · simp only [splitLoop, if_neg hcond]
      by_cases he : text.isEmpty
      · rw [if_pos he]
        rcases List.isEmpty_iff.mp he with rfl
        exact ⟨List.Sublist.refl _, rfl⟩
      · rw [if_neg he]
        constructor
        · simp
        · simp

theorem splitLoop_length_pos (max_len fuel : ℕ) (text : List Char)
    (h2 : max_len < text.length) (hf : 1 ≤ fuel) :
    0 < (splitLoop max_len fuel text).length := by
  cases fuel with
  | zero => omega
  | succ f =>
    simp only [splitLoop, if_pos h2]
    simp

/-- Claim C2: for every text t with t.length > max_len and max_len ≥ 1,
every chunk returned by split_text t max_len has length at most max_len. -/
theorem c2_chunk_length_le (t : List Char) (max_len : ℕ) (h1 : 1 ≤ max_len)
    (h2 : max_len < t.length) :
    ∀ c ∈ split_text t max_len, c.length ≤ max_len := by
  rw [split_text, if_neg (by omega)]
  exact splitLoop_chunk_le max_len h1 t.length t (le_refl _)

/-- Witness for C2: at the concrete 62-character input and max_len 25, the
first chunk split_text returns has length at most 25. -/
theorem c2_chunk_length_le_witness : ("aaaaaaaaaaaaaaaaaaaa,".toList).length ≤ 25 :=
  c2_chunk_length_le cexText 25 (by decide) (by decide) _ (by decide)

/-- Claim C3: for every text t and max_len ≥ 1, the concatenation of the
chunks returned by split_text t max_len, in order, is obtained from t by
deleting only whitespace characters: it is a sublist of t, and filtering
out whitespace on both sides gives equal lists, so no non-whitespace
character is dropped or reordered. -/
theorem c3_concat_reconstructs (t : List Char) (max_len : ℕ) (h : 1 ≤ max_len) :
    (split_text t max_len).flatten.Sublist t ∧
      (split_text t max_len).flatten.filter nonWhitespace = t.filter nonWhitespace := by
  rw [split_text]
  by_cases hc : t.length ≤ max_len
  · rw [if_pos hc]
    have hflat : ([t] : List (List Char)).flatten = t := by simp
    rw [hflat]
    exact ⟨List.Sublist.refl _, rfl⟩
  · rw [if_neg hc]
    exact splitLoop_flatten max_len h t.length t (le_refl _)

/-- Witness for C3: at the concrete 62-character input and max_len 25. -/
theorem c3_concat_reconstructs_witness :
    (split_text cexText 25).flatten.Sublist cexText ∧
      (split_text cexText 25).flatten.filter nonWhitespace
        = cexText.filter nonWhitespace :=
  c3_concat_reconstructs cexText 25 (by decide)

/-- Claim C7: for every text t with t.length ≤ max_len, split_text returns
the one-element list [t], with t unchanged. -/
theorem c7_short_text_unchanged (t : List Char) (max_len : ℕ) (h : t.length ≤ max_len) :
    split_text t max_len = [t] := by
  rw [split_text, if_pos h]

/-- Witness for C7: a short text passes through split_text unchanged. -/
theorem c7_short_text_unchanged_witness :
    split_text ("hello world".toList) 25 = ["hello world".toList] :=
  c7_short_text_unchanged ("hello world".toList) 25 (by decide)

/-- Claim C9: for every text t with t.length > max_len ≥ 1 (in particular a
non-empty trimmed text), split_text returns at least one chunk, so the
guarded n = 0 division case of the timestamp computation is never taken:
the guard expression always takes the division branch. -/
theorem c9_split_never_empty (t : List Char) (max_len : ℕ) (d : ℚ) (h1 : 1 ≤ max_len)
    (h2 : max_len < t.length) :
    0 < (split_text t max_len).length ∧
      (if 0 < (split_text t max_len).length
        then d / ((split_text t max_len).length : ℚ) else 0)
        = d / ((split_text t max_len).length : ℚ) := by
  have hp : 0 < (split_text t max_len).length := by
    rw [split_text, if_neg (by omega)]
    exact splitLoop_length_pos max_len t.length t h2 (by omega)
  exact ⟨hp, if_pos hp⟩

/-- Witness for C9: at the concrete 62-character input and max_len 25. -/
theorem c9_split_never_empty_witness :
    0 < (split_text cexText 25).length ∧
      (if 0 < (split_text cexText 25).length
        then (1 : ℚ) / ((split_text cexText 25).length : ℚ) else 0)
        = (1 : ℚ) / ((split_text cexText 25).length : ℚ) :=
  c9_split_never_empty cexText 25 1 (by decide) (by decide)

/-- Claim C10: for every input text and every max_len ≥ 1, split_text
terminates: each loop iteration strictly decreases the length of the
remaining text (the split position is at least 0, so at least one
character is consumed before re-trimming), and consequently the loop's
result is independent of the fuel once the fuel reaches the text length. -/
theorem c10_loop_terminates (max_len : ℕ) (h : 1 ≤ max_len) :
    (∀ text : List Char, max_len < text.length →
      (strip (text.drop (split_pos text max_len + 1).toNat)).length < text.length) ∧
    (∀ fuel₁ fuel₂ (text : List Char), text.length ≤ fuel₁ → text.length ≤ fuel₂ →
      splitLoop max_len fuel₁ text = splitLoop max_len fuel₂ text) :=
  ⟨fun text hc => strip_drop_lt text max_len h hc, splitLoop_fuel_agnostic max_len h⟩

/-- Witness for C10: at the concrete 62-character input and max_len 25,
one iteration shrinks the remainder, and fuel 100 and fuel 62 agree. -/
theorem c10_loop_terminates_witness :
    (strip (cexText.drop (split_pos cexText 25 + 1).toNat)).length < cexText.length ∧
      splitLoop 25 100 cexText = splitLoop 25 62 cexText :=
  ⟨(c10_loop_terminates 25 (by decide)).1 cexText (by decide),
   (c10_loop_terminates 25 (by decide)).2 100 62 cexText (by decide) (by decide)⟩

/-! ## Lemmas about rounding -/

theorem rhe_floor_le (q : ℚ) : ⌊q⌋ ≤ roundHalfEven q := by
  rw [roundHalfEven]
  split
  · exact le_refl _
  · split
    · omega
    · split <;> omega

theorem rhe_le_floor_add_one (q : ℚ) : roundHalfEven q ≤ ⌊q⌋ + 1 := by
  rw [roundHalfEven]
  split
  · omega
  · split
    · exact le_refl _
    · split <;> omega

theorem roundHalfEven_mono (q r : ℚ) (h : q ≤ r) :
    roundHalfEven q ≤ roundHalfEven r := by
  have hf : ⌊q⌋ ≤ ⌊r⌋ := Int.floor_mono h
  rcases lt_or_eq_of_le hf with hlt | heq
  · calc roundHalfEven q ≤ ⌊q⌋ + 1 := rhe_le_floor_add_one q
      _ ≤ ⌊r⌋ := by omega
      _ ≤ roundHalfEven r := rhe_floor_le r
  · rw [roundHalfEven, roundHalfEven, ← heq]
    split_ifs <;> first | omega | (exfalso; linarith)

theorem pyRound2_mono (q r : ℚ) (h : q ≤ r) : pyRound2 q ≤ pyRound2 r := by
  rw [pyRound2, pyRound2]
  have h1 : q * 100 ≤ r * 100 := by linarith
  have h2 := roundHalfEven_mono (q * 100) (r * 100) h1
  have h3 : ((roundHalfEven (q * 100) : ℤ) : ℚ) ≤ ((roundHalfEven (r * 100) : ℤ) : ℚ) := by
    exact_mod_cast h2
  linarith

/-! ## Lemmas about processSegment -/

theorem split_text_length_pos (t : List Char) (max_len : ℕ) (h1 : 1 ≤ max_len)
    (h2 : max_len < t.length) : 0 < (split_text t max_len).length := by
  rw [split_text, if_neg (by omega)]
  exact splitLoop_length_pos max_len t.length t h2 (by omega)

theorem map_fst_fun_enum {α β : Type} (l : List α) (f : ℕ → β) :
    l.enum.map (fun jp => f jp.1) = (List.range l.length).map f := by
  have h1 : l.enum.map (fun jp => f jp.1) = (l.enum.map Prod.fst).map f := by
    rw [List.map_map]
    rfl
  rw [h1, List.enum_map_fst]

theorem processSegment_times (seg : RawSegment)
    (h : MAX_TEXT_LENGTH < (strip seg.text).length) :
    (processSegment seg).map SubtitleEntry.time
      = (List.range (split_text (strip seg.text) MAX_TEXT_LENGTH).length).map
          (fun (j : ℕ) => pyRound2 (pyRound2 seg.start + (j : ℚ) *
            ((pyRound2 seg.«end» - pyRound2 seg.start) /
              ((split_text (strip seg.text) MAX_TEXT_LENGTH).length : ℚ)))) := by
  have hn : 0 < (split_text (strip seg.text) MAX_TEXT_LENGTH).length :=
    split_text_length_pos (strip seg.text) MAX_TEXT_LENGTH (by norm_num [MAX_TEXT_LENGTH]) h
  simp only [processSegment, if_pos h, if_pos hn, List.map_map]
  exact map_fst_fun_enum (split_text (strip seg.text) MAX_TEXT_LENGTH)
    (fun (j : ℕ) => pyRound2 (pyRound2 seg.start + (j : ℚ) *
      ((pyRound2 seg.«end» - pyRound2 seg.start) /
        ((split_text (strip seg.text) MAX_TEXT_LENGTH).length : ℚ))))

/-- Counterexample to claim C1: a segment whose text is all whitespace is
not skipped by the driver; it produces one SubtitleEntry whose text is
the empty string. -/
theorem c1_empty_segment_counterexample :
    processSegment ⟨0, 1, [' ', ' ', ' ']⟩ = [⟨0, []⟩] := by
  have h : strip ([' ', ' ', ' '] : List Char) = [] := by decide
  simp [processSegment, h, MAX_TEXT_LENGTH, pyRound2, roundHalfEven]

/-- Claim C1 as amended: for every RawSegment whose text is empty or
all-whitespace after trimming, the driver takes the short-text branch and
appends exactly one SubtitleEntry, with empty text and time equal to the
rounded segment start (the code has no skip for empty trimmed text). -/
theorem c1_empty_segment_one_empty_entry (seg : RawSegment)
    (h : strip seg.text = []) :
    processSegment seg = [⟨pyRound2 seg.start, []⟩] := by
  simp [processSegment, h, MAX_TEXT_LENGTH]

/-- Witness for amended C1: the all-whitespace segment yields exactly one
entry with empty text. -/
theorem c1_empty_segment_one_empty_entry_witness :
    processSegment ⟨0, 1, [' ', ' ', ' ']⟩ = [⟨pyRound2 0, []⟩] :=
  c1_empty_segment_one_empty_entry ⟨0, 1, [' ', ' ', ' ']⟩ (by decide)

/-- Counterexample to claim C5: for the segment cexSeg (start 0.004,
end 0.009, 62-character text split into 3 chunks) the emitted time at
chunk index 1 is 0, while the claim's formula start + 1 * (end - start) / 3
rounded to two decimals gives 0.01; the code rounds start and end to two
decimals before redistributing, the claim's formula rounds only at the
end. -/
theorem c5_time_formula_counterexample :
    (split_text (strip cexSeg.text) MAX_TEXT_LENGTH).length = 3 ∧
      (processSegment cexSeg).map SubtitleEntry.time = [0, 0, 1/100] ∧
      pyRound2 (cexSeg.start + 1 * ((cexSeg.«end» - cexSeg.start) / 3)) = 1/100 ∧
      (0 : ℚ) ≠ 1/100 := by
  have h1 : MAX_TEXT_LENGTH < (strip cexSeg.text).length := by decide
  have h2 : (split_text (strip cexSeg.text) MAX_TEXT_LENGTH).length = 3 := by decide
  refine ⟨h2, ?_, ?_, by norm_num⟩
  · rw [processSegment_times cexSeg h1, h2]
    rw [show List.range 3 = [0, 1, 2] from rfl]
    simp only [List.map_cons, List.map_nil]
    norm_num [cexSeg, pyRound2, roundHalfEven]
  · norm_num [cexSeg, pyRound2, roundHalfEven]

/-- Claim C5 as amended: when a RawSegment is split into n chunks, the
emitted time of the chunk at index j equals
round2(round2(start) + j * (round2(end) - round2(start)) / n) — the code
first rounds start and end to two decimal places, then redistributes; in
particular, for start 0.0, end 10.0 and n = 3 the emitted times are
0.0, 3.33, 6.67, as the original claim states. -/
theorem c5_time_redistribution :
    (∀ seg : RawSegment, MAX_TEXT_LENGTH < (strip seg.text).length →
      (processSegment seg).map SubtitleEntry.time
        = (List.range (split_text (strip seg.text) MAX_TEXT_LENGTH).length).map
            (fun (j : ℕ) => pyRound2 (pyRound2 seg.start + (j : ℚ) *
              ((pyRound2 seg.«end» - pyRound2 seg.start) /
                ((split_text (strip seg.text) MAX_TEXT_LENGTH).length : ℚ))))) ∧
    (processSegment ⟨0, 10, cexText⟩).map SubtitleEntry.time
      = [0, 333/100, 667/100] := by
  refine ⟨processSegment_times, ?_⟩
  have h1 : MAX_TEXT_LENGTH < (strip (⟨0, 10, cexText⟩ : RawSegment).text).length := by
    decide
  have h2 : (split_text (strip (⟨0, 10, cexText⟩ : RawSegment).text)
      MAX_TEXT_LENGTH).length = 3 := by decide
  rw [processSegment_times _ h1, h2]
  rw [show List.range 3 = [0, 1, 2] from rfl]
  simp only [List.map_cons, List.map_nil]
  norm_num [pyRound2, roundHalfEven]

/-- Witness for amended C5: the redistribution formula instantiated at the
segment from 0.0 to 10.0 with the 62-character text. -/
theorem c5_time_redistribution_witness :
    (processSegment ⟨0, 10, cexText⟩).map SubtitleEntry.time
      = (List.range (split_text (strip cexText) MAX_TEXT_LENGTH).length).map
          (fun (j : ℕ) => pyRound2 (pyRound2 0 + (j : ℚ) *
            ((pyRound2 10 - pyRound2 0) /
              ((split_text (strip cexText) MAX_TEXT_LENGTH).length : ℚ)))) :=
  c5_time_redistribution.1 ⟨0, 10, cexText⟩ (by decide)

/-- Claim C6: for every RawSegment with end ≥ start, the time values of
the SubtitleEntry sequence derived from that segment are monotonically
non-decreasing in emission order. -/
theorem c6_times_monotone (seg : RawSegment) (h : seg.start ≤ seg.«end») :
    ((processSegment seg).map SubtitleEntry.time).Pairwise (· ≤ ·) := by
  by_cases hlong : MAX_TEXT_LENGTH < (strip seg.text).length
  · rw [processSegment_times seg hlong]
    refine List.pairwise_map.mpr ?_
    refine (List.pairwise_lt_range _).imp ?_
    intro a b hab
    apply pyRound2_mono
    have hst : pyRound2 seg.start ≤ pyRound2 seg.«end» := pyRound2_mono _ _ h
    have htpp : 0 ≤ (pyRound2 seg.«end» - pyRound2 seg.start) /
        ((split_text (strip seg.text) MAX_TEXT_LENGTH).length : ℚ) := by
      apply div_nonneg
      · linarith
      · positivity
    have hcast : (a : ℚ) ≤ (b : ℚ) := by exact_mod_cast le_of_lt hab
    nlinarith
  · simp only [processSegment, if_neg hlong]
    simp

/-- Witness for C6: the times of the three entries derived from the
segment from 0.0 to 10.0 with the 62-character text are non-decreasing. -/
theorem c6_times_monotone_witness :
    ((processSegment ⟨0, 10, cexText⟩).map SubtitleEntry.time).Pairwise (· ≤ ·) :=
  c6_times_monotone ⟨0, 10, cexText⟩ (by norm_num)

theorem findSnapshot_eq_none (fs : FS) (dir : String) (l : List String)
    (h : ∀ s ∈ l, ¬(fs.isDir (joinPath dir s) = true ∧
        fs.pathExists (joinPath (joinPath dir s) "model.bin") = true)) :
    findSnapshot fs dir l = none := by
  induction l with
  | nil => rfl
  | cons s rest ih =>
    rw [findSnapshot]
    have hs := h s (List.mem_cons_self _ _)
    rw [if_neg (by simpa [Bool.and_eq_true] using hs)]
    exact ih (fun x hx => h x (List.mem_cons_of_mem _ hx))

/-- Claim C8: for every identifier that is not an existing local directory
containing the weights file, resolve_model_path returns the identifier
unchanged when either the identifier is not a known short name, or it is
a known short name but no snapshot directory under the configured models
directory contains the weights file. -/
theorem c8_resolve_returns_identifier (fs : FS) (models_dir model_name : String)
    (h1 : ¬(fs.isDir model_name = true ∧
        fs.pathExists (joinPath model_name "model.bin") = true))
    (h2 : ∀ folder, model_map.lookup model_name = some folder →
        ∀ s ∈ fs.listDir (joinPath (joinPath models_dir folder) "snapshots"),
          ¬(fs.isDir (joinPath (joinPath (joinPath models_dir folder) "snapshots") s)
              = true ∧
            fs.pathExists (joinPath (joinPath (joinPath (joinPath models_dir folder)
              "snapshots") s) "model.bin") = true)) :
    resolve_model_path fs models_dir model_name = model_name := by
  simp only [resolve_model_path]
  rw [if_neg (by simpa [Bool.and_eq_true] using h1)]
  split
  next folder heq =>
    split
    next hd => rw [findSnapshot_eq_none fs _ _ (h2 folder heq)]
    next hd => rfl
  next heq => rfl

/-- Witness for C8: on a filesystem with no local model at all, a remote
identifier is passed through unchanged. -/
theorem c8_resolve_returns_identifier_witness :
    resolve_model_path emptyFS "/root/.cache/huggingface" "Systran/faster-whisper-base"
      = "Systran/faster-whisper-base" :=
  c8_resolve_returns_identifier emptyFS "/root/.cache/huggingface"
    "Systran/faster-whisper-base"
    (by simp [emptyFS])
    (fun folder _ s hs => absurd hs (by simp [emptyFS]))

end WhisperTranscribe
